import Mathlib

/-!
# DiffusionSimulation: the engine `ModelBase` and the buffer `MatrixBase`

A shallow embedding of `3611_pfinal/ModelBase.h` and `3611_pfinal/MatrixBase.h`.

* `double` values are rationals (`ℚ`): rounding, NaN and infinities are outside the model.
* `int` is 32 bits wide and arithmetic that leaves its range is undefined behaviour: this is
  modelled where a result can leave the range, for the loop counter of `runModel` (compared
  with a `double`) and for the product `(j - 1) * f->N` of `printFrames`. The other `int`
  variables of `printFrames` stay within the `int` values they are compared with (`i < N`,
  `0 < j ≤ M`, `count ≤ len`); `N`, `M` and the number of frames are taken to be `int` values.
* Objects created with `new` live in a heap (a list of tables); a `Table *` is an index into it.
* A member function maps the object (`this`) and the process state (`Machine`) to an `Outcome`:
  normal return, a C++ exception (with the state at the `throw`), or undefined behaviour.
* Code that `ModelBase.h` calls but does not define (the `Table` constructor, the two
  `formNextTimeStep` specialisations) is a parameter (`Externals`).
-/

namespace DiffusionSimulation

/-- Largest value of the 32-bit type `int`. -/
def INT_MAX : Int := 2147483647

/-- Kinds of undefined behaviour the embedded code can run into. -/
inductive UB where
  /-- Integer `a % b` with `b == 0`. -/
  | moduloByZero
  /-- Arithmetic on `int` whose result is outside the 32-bit range. -/
  | signedOverflow
  /-- Conversion `(int)x` of a `double` whose truncation is outside `int`. -/
  | floatToInt
  /-- Read through a pointer outside the object it points to. -/
  | badRead
  deriving DecidableEq, Repr

/-- How a call ends: normal return with the final state, a thrown exception together with
the state at the `throw`, or undefined behaviour. -/
inductive Outcome (σ : Type) where
  | ok (s : σ)
  | thrown (msg : String) (s : σ)
  | undefined (ub : UB)

/-- The `struct MatrixBase` (MatrixBase.h:6-22): the array `V` points to, the width `N`
and the height `M`. -/
structure MatrixBase where
  V : List ℚ
  N : Int
  M : Int

/-- The unscoped `enum COORD { cartesian, polar }` (ModelBase.h:52), carried as its
underlying integer so that values outside the two enumerators can be passed. -/
abbrev COORD := Int

/-- Enumerator `cartesian` of `COORD`. -/
def cartesian : COORD := 0

/-- Enumerator `polar` of `COORD`. -/
def polar : COORD := 1

/-- The two member functions the pointer `solve` (ModelBase.h:31) is ever set to. -/
inductive Solver where
  | formNextTimeStep
  | formNextTimeStepPolar
  deriving DecidableEq, Repr

/-- The data members of `ModelBase<Table, InitCondition>` (ModelBase.h:22-31). -/
structure ModelBase (InitCondition : Type) where
  /-- Time step length (`const double`). -/
  dT : ℚ
  /-- Diffusion coefficient (`const double`). -/
  Dcoef : ℚ
  /-- The recorded frames, `std::vector<Table *>`: heap addresses in insertion order. -/
  frames : List Nat
  /-- The frame being processed, a `Table *`. -/
  current_frame : Nat
  /-- The borrowed initial conditions. -/
  IC : InitCondition
  /-- The function pointer `double(*R)(double)`. -/
  R : ℚ → ℚ
  /-- The member-function pointer selecting the solution type. -/
  solve : Solver

/-- What is written to `std::cout`; number formatting is not modelled. -/
inductive ConsoleMsg where
  /-- The progress line of `runModel` (ModelBase.h:107-112): time, frame, percent. -/
  | progress (time : ℚ) (frame : Int) (percent : ℚ)
  /-- The closing lines of `runModel` (ModelBase.h:119-120). -/
  | simulationComplete
  /-- The progress line of `printFrames` (ModelBase.h:133-135). -/
  | printing (percent : ℚ)
  /-- The closing line of `printFrames` (ModelBase.h:149). -/
  | framesPrinted

/-- A call made by `runModel` that the claims count: `Time::addTime(dT)` and the call
through `solve`. -/
inductive Call where
  | addTime (dT : ℚ)
  | solve (target : Solver)
  deriving DecidableEq

/-- The process state around an engine: the shared clock of `Time`, the heap of tables
created with `new`, the console, and the log of the calls made so far (a ghost field,
written only by `Time.addTime` and `invokeSolve`). -/
structure Machine (Table : Type) where
  time : ℚ
  heap : List Table
  cout : List ConsoleMsg
  calls : List Call

/-- Modelled from the spec: the process state before any engine exists; the class `Time`
is not in src, and the spec gives the post-construction clock as 0. -/
def Machine.init (Table : Type) : Machine Table :=
  { time := 0, heap := [], cout := [], calls := [] }

/-- The code `ModelBase.h` uses without defining it: the constructor `Table(IC)`, the
members `V`, `N`, `M` a `Table` exposes, and the specialisations of `formNextTimeStep` and
`formNextTimeStepPolar` (declared at ModelBase.h:76-83). A stepping function works on the
engine and the heap. -/
structure Externals (Table InitCondition : Type) where
  construct : InitCondition → Table
  base : Table → MatrixBase
  formNextTimeStep : ModelBase InitCondition → List Table → ModelBase InitCondition × List Table
  formNextTimeStepPolar :
    ModelBase InitCondition → List Table → ModelBase InitCondition × List Table

/-- Modelled from the spec: `Time::getTime()` of the absent class `Time`, the current value
of the shared simulation clock. -/
def Time.getTime {Table : Type} (w : Machine Table) : ℚ :=
  w.time

/-- Modelled from the spec: `Time::addTime(dT)` of the absent class `Time`, which advances
the shared simulation clock by `dT`; the call is logged. -/
def Time.addTime {Table : Type} (dT : ℚ) (w : Machine Table) : Machine Table :=
  { w with time := w.time + dT, calls := w.calls ++ [Call.addTime dT] }

/-- The expression `new Table(...)`: the object is placed at a fresh address. -/
def alloc {Table : Type} (t : Table) (heap : List Table) : Nat × List Table :=
  (heap.length, heap ++ [t])

/-- The call `(this->*solve)()` (ModelBase.h:116); the call is logged. -/
def invokeSolve {Table InitCondition : Type} (X : Externals Table InitCondition)
    (this : ModelBase InitCondition) (w : Machine Table) :
    ModelBase InitCondition × Machine Table :=
  let r := match this.solve with
    | Solver.formNextTimeStep => X.formNextTimeStep this w.heap
    | Solver.formNextTimeStepPolar => X.formNextTimeStepPolar this w.heap
  (r.1, { w with heap := r.2, calls := w.calls ++ [Call.solve this.solve] })

/-- The constructor `ModelBase::ModelBase` (ModelBase.h:85-92). -/
def ModelBase.ctor {Table InitCondition : Type} (X : Externals Table InitCondition)
    (dT Dcoef : ℚ) (IC : InitCondition) (R : ℚ → ℚ) (w : Machine Table) :
    Outcome (ModelBase InitCondition × Machine Table) :=
  let solve := Solver.formNextTimeStep
  let a0 := alloc (X.construct IC) w.heap
  let frames := ([] : List Nat) ++ [a0.1]
  let a1 := alloc (X.construct IC) a0.2
  Outcome.ok
    ({ dT := dT, Dcoef := Dcoef, frames := frames, current_frame := a1.1, IC := IC, R := R,
       solve := solve },
     { w with heap := a1.2 })

/-- The accessor `ModelBase::getFrames` (ModelBase.h:94-98). -/
def ModelBase.getFrames {InitCondition : Type} (this : ModelBase InitCondition) : List Nat :=
  this.frames

/-- The cast `(int)x` of a `double`: truncation toward zero. -/
def truncToInt (x : ℚ) : Int :=
  if 0 ≤ x then ⌊x⌋ else ⌈x⌉

/-- The `for` loop of `ModelBase::runModel` (ModelBase.h:103-117) from counter value `i`. -/
def runModelLoop {Table InitCondition : Type} (X : Externals Table InitCondition)
    (steps : ℚ) (i : Int) (this : ModelBase InitCondition) (w : Machine Table) :
    Outcome (ModelBase InitCondition × Machine Table) :=
  if (i : ℚ) < steps then
    if h : INT_MAX < i + 1 then Outcome.undefined UB.signedOverflow
    else
      let d := truncToInt (steps / 20)
      if d < -INT_MAX - 1 ∨ INT_MAX < d then Outcome.undefined UB.floatToInt
      else if d = 0 then Outcome.undefined UB.moduloByZero
      else
        let w1 :=
          if Int.tmod (i + 1) d = 0 then
            { w with cout := w.cout ++
                [ConsoleMsg.progress (Time.getTime w + this.dT) (i + 1) ((i : ℚ) / steps * 100)] }
          else w
        let w2 := Time.addTime this.dT w1
        let r := invokeSolve X this w2
        runModelLoop X steps (i + 1) r.1 r.2
  else Outcome.ok (this, w)
termination_by (INT_MAX + 1 - i).toNat
decreasing_by
  simp only [INT_MAX] at h ⊢
  omega

/-- The member function `ModelBase::runModel` (ModelBase.h:100-121). -/
def ModelBase.runModel {Table InitCondition : Type} (X : Externals Table InitCondition)
    (steps : ℚ) (this : ModelBase InitCondition) (w : Machine Table) :
    Outcome (ModelBase InitCondition × Machine Table) :=
  match runModelLoop X steps 0 this w with
  | Outcome.ok r =>
      Outcome.ok (r.1, { r.2 with cout := r.2.cout ++ [ConsoleMsg.simulationComplete] })
  | o => o

/-- The member function `ModelBase::pickCoord` (ModelBase.h:152-168). -/
def ModelBase.pickCoord {Table InitCondition : Type} (c : COORD)
    (this : ModelBase InitCondition) (w : Machine Table) :
    Outcome (ModelBase InitCondition × Machine Table) :=
  if c = cartesian then Outcome.ok ({ this with solve := Solver.formNextTimeStep }, w)
  else if c = polar then Outcome.ok ({ this with solve := Solver.formNextTimeStepPolar }, w)
  else Outcome.thrown "Incorrect coordinates supplied" (this, w)

/-- The pointer offset `i + (j - 1) * f->N` of the cell in column `i` of row `j`
(ModelBase.h:142). The product `(j - 1) * f->N` is computed in `int`: outside the 32-bit
range it is undefined behaviour and there is no offset (`none`). The two additions are
pointer arithmetic and exact. The loop calls it with `0 < j`, so `j - 1` stays in range. -/
def offset (N i j : Int) : Option Int :=
  if (j - 1) * N < -INT_MAX - 1 ∨ INT_MAX < (j - 1) * N then none
  else some (i + (j - 1) * N)

/-- The read `*(f->V + k)`: defined only inside the array `V` points to. -/
def readAt (V : List ℚ) (k : Int) : Option ℚ :=
  if 0 ≤ k then V[k.toNat]? else none

/-- The inner loop of `printFrames` (ModelBase.h:140-143) from column `i`: the fields
written so far on the current line are `line`. -/
def printRow (V : List ℚ) (N j : Int) (i : Int) (line : List ℚ) : Outcome (List ℚ) :=
  if i < N then
    match offset N i j with
    | none => Outcome.undefined UB.signedOverflow
    | some k =>
        match readAt V k with
        | some v => printRow V N j (i + 1) (line ++ [v])
        | none => Outcome.undefined UB.badRead
  else Outcome.ok line
termination_by (N - i).toNat
decreasing_by omega

/-- The row loop of `printFrames` (ModelBase.h:138-145) from row `j` downwards: every row
becomes one line of the sink `fout`, closed by `std::endl`. -/
def printRows (V : List ℚ) (N : Int) (j : Int) (fout : List (List ℚ)) :
    Outcome (List (List ℚ)) :=
  if 0 < j then
    match printRow V N j 0 [] with
    | Outcome.ok line => printRows V N (j - 1) (fout ++ [line])
    | Outcome.thrown msg _ => Outcome.thrown msg fout
    | Outcome.undefined ub => Outcome.undefined ub
  else Outcome.ok fout
termination_by j.toNat
decreasing_by omega

/-- The range-for loop of `printFrames` (ModelBase.h:129-147) over the remaining frames;
`count` and `len` are the local variables, `size` is `frames.size()`. A line of the sink
is the list of its numeric fields, the empty list being a blank line. -/
def printFramesLoop {Table InitCondition : Type} (X : Externals Table InitCondition)
    (heap : List Table) (len : Int) (size : Nat) :
    List Nat → Int → List ConsoleMsg → List (List ℚ) →
      Outcome (List ConsoleMsg × List (List ℚ))
  | [], _, cout, fout => Outcome.ok (cout, fout)
  | f :: rest, count, cout, fout =>
      let count1 := count + 1
      let d := Int.tdiv len 20
      if d = 0 then Outcome.undefined UB.moduloByZero
      else
        let cout1 :=
          if Int.tmod count1 d = 0 then
            cout ++ [ConsoleMsg.printing ((count1 : ℚ) / (size : ℚ) * 100)]
          else cout
        match heap[f]? with
        | none => Outcome.undefined UB.badRead
        | some t =>
            match printRows (X.base t).V (X.base t).N (X.base t).M fout with
            | Outcome.ok fout1 =>
                printFramesLoop X heap len size rest count1 cout1 (fout1 ++ [[]])
            | Outcome.thrown msg _ => Outcome.thrown msg (cout1, fout)
            | Outcome.undefined ub => Outcome.undefined ub

/-- The member function `ModelBase::printFrames` (ModelBase.h:123-150); the sink `fout` is
returned next to the engine and the process state. -/
def ModelBase.printFrames {Table InitCondition : Type} (X : Externals Table InitCondition)
    (this : ModelBase InitCondition) (w : Machine Table) (fout : List (List ℚ)) :
    Outcome (ModelBase InitCondition × Machine Table × List (List ℚ)) :=
  let count : Int := 0
  let len : Int := (this.frames.length : Int)
  match printFramesLoop X w.heap len this.frames.length this.frames count w.cout fout with
  | Outcome.ok r =>
      Outcome.ok (this, { w with cout := r.1 ++ [ConsoleMsg.framesPrinted] }, r.2)
  | Outcome.thrown msg r => Outcome.thrown msg (this, { w with cout := r.1 }, r.2)
  | Outcome.undefined ub => Outcome.undefined ub

/-- The rows `r`, `r - 1`, ..., `1` of a buffer of width `N` as the spec lays them out:
row `j` holds the `N` values from flat offset `(j - 1) * N` on. Follows the spec, not the
code; used only to state what `printFrames` writes. -/
def rowsDown (V : List ℚ) (N : Nat) : Nat → List (List ℚ)
  | 0 => []
  | r + 1 => (V.drop (r * N)).take N :: rowsDown V N r

/-- The lines the spec gives for one frame: rows `M` down to `1`, then one blank line.
Follows the spec, not the code. -/
def frameLines (t : MatrixBase) : List (List ℚ) :=
  rowsDown t.V t.N.toNat t.M.toNat ++ [[]]

/-- The lines the spec gives for a history: the lines of every frame, in history order.
Follows the spec, not the code. -/
def historyLines {Table InitCondition : Type} (X : Externals Table InitCondition)
    (heap : List Table) (frames : List Nat) : List (List ℚ) :=
  frames.flatMap fun f =>
    match heap[f]? with
    | some t => frameLines (X.base t)
    | none => []

/-- A frame address that points to a table whose array holds at least `N * M` values, with
non-negative width and height and with `(M - 1) * N` within `int`. -/
def validFrame {Table InitCondition : Type} (X : Externals Table InitCondition)
    (heap : List Table) (f : Nat) : Prop :=
  ∃ t, heap[f]? = some t ∧ 0 ≤ (X.base t).N ∧ 0 ≤ (X.base t).M ∧
    (X.base t).M * (X.base t).N ≤ ((X.base t).V.length : Int) ∧
    ((X.base t).M - 1) * (X.base t).N ≤ INT_MAX

/-- A one-row table holding the initial values: a sample `Table(IC)` for concrete runs. -/
def sampleTable (ic : List ℚ) : MatrixBase :=
  { V := ic, N := (ic.length : Int), M := 1 }

/-- A sample stepping function for concrete runs: it stores a copy of the working frame
as a new table and appends its address to the history. -/
def sampleStep (this : ModelBase (List ℚ)) (heap : List MatrixBase) :
    ModelBase (List ℚ) × List MatrixBase :=
  let t := heap.getD this.current_frame (sampleTable this.IC)
  let a := alloc t heap
  ({ this with frames := this.frames ++ [a.1] }, a.2)

/-- Sample externals for concrete runs: one-row tables and `sampleStep` for both
coordinate types. -/
def sampleX : Externals MatrixBase (List ℚ) :=
  { construct := sampleTable, base := id, formNextTimeStep := sampleStep,
    formNextTimeStepPolar := sampleStep }

/-- A sample engine for concrete runs: time step 1/10 and the initial values 0 0 1 0 0,
as constructed by `ModelBase.ctor` on the initial machine. -/
def sampleEngine : ModelBase (List ℚ) :=
  { dT := 1 / 10, Dcoef := 1, frames := [0], current_frame := 1, IC := [0, 0, 1, 0, 0],
    R := fun _ => 0, solve := Solver.formNextTimeStep }

/-- The machine left by constructing `sampleEngine` on the initial machine. -/
def sampleMachine : Machine MatrixBase :=
  { time := 0, heap := [sampleTable [0, 0, 1, 0, 0], sampleTable [0, 0, 1, 0, 0]],
    cout := [], calls := [] }

/-! ## The constructor -/

/-- C6: for every `dT`, `Dcoef`, initial-condition provider and source function, the
constructor returns normally with a history of exactly one frame, built by `Table(IC)`;
the working frame is a second, distinct heap object also built by `Table(IC)`; both are
new objects, and `solve` points to the cartesian `formNextTimeStep`. -/
theorem ctor_initial_state {Table InitCondition : Type} (X : Externals Table InitCondition)
    (dT Dcoef : ℚ) (ic : InitCondition) (R : ℚ → ℚ) (w : Machine Table) :
    ∃ e w' a0, ModelBase.ctor X dT Dcoef ic R w = Outcome.ok (e, w') ∧
      e.frames = [a0] ∧ e.frames.length = 1 ∧
      w'.heap[a0]? = some (X.construct ic) ∧
      w'.heap[e.current_frame]? = some (X.construct ic) ∧
      e.current_frame ≠ a0 ∧
      w.heap.length ≤ a0 ∧ w.heap.length ≤ e.current_frame ∧
      e.solve = Solver.formNextTimeStep ∧
      e.dT = dT ∧ e.Dcoef = Dcoef ∧ e.IC = ic ∧ e.R = R := by
  refine ⟨_, _, _, rfl, rfl, rfl, ?_, ?_, ?_, ?_, ?_, rfl, rfl, rfl, rfl, rfl⟩
  · show ((w.heap ++ [X.construct ic]) ++ [X.construct ic])[w.heap.length]? = _
    rw [List.append_assoc, List.getElem?_append_right (le_refl _)]
    simp
  · show ((w.heap ++ [X.construct ic]) ++ [X.construct ic])[(w.heap ++ [X.construct ic]).length]?
      = _
    rw [List.getElem?_append_right (le_refl _)]
    simp
  · simp [alloc]
  · simp [alloc]
  · simp [alloc]

/-- C7 (as amended): the constructor has no failure path and does not inspect `dT`: for
every `dT`, also `dT ≤ 0`, it returns normally with an engine that stores `dT` unchanged,
has a one-frame history and the cartesian solver. -/
theorem ctor_accepts_every_dT {Table InitCondition : Type}
    (X : Externals Table InitCondition) (dT Dcoef : ℚ) (ic : InitCondition) (R : ℚ → ℚ)
    (w : Machine Table) :
    ∃ e w', ModelBase.ctor X dT Dcoef ic R w = Outcome.ok (e, w') ∧
      e.dT = dT ∧ e.frames.length = 1 ∧ e.solve = Solver.formNextTimeStep :=
  ⟨_, _, rfl, rfl, rfl, rfl⟩

/-- C7 (counterexample): with `dT = -1 ≤ 0` the constructor does not throw; it returns
normally with a one-frame engine whose time step is `-1`. -/
theorem ctor_negative_dT_succeeds :
    (-1 : ℚ) ≤ 0 ∧
    (∀ msg s, ModelBase.ctor sampleX (-1) 1 [0, 0, 1, 0, 0] (fun _ => 0)
        (Machine.init MatrixBase) ≠ Outcome.thrown msg s) ∧
    ∃ e w', ModelBase.ctor sampleX (-1) 1 [0, 0, 1, 0, 0] (fun _ => 0)
        (Machine.init MatrixBase) = Outcome.ok (e, w') ∧
      e.dT = -1 ∧ e.frames.length = 1 := by
  refine ⟨by norm_num, ?_, _, _, rfl, rfl, rfl⟩
  intro msg s h
  simp [ModelBase.ctor] at h

/-! ## Selecting the coordinates -/

/-- C3: for every engine and process state and every `COORD` value other than `cartesian`
and `polar`, `pickCoord` throws, and the state at the `throw` is the state before the call:
`solve` and every other field are untouched. -/
theorem pickCoord_invalid_throws {Table InitCondition : Type} (c : COORD)
    (this : ModelBase InitCondition) (w : Machine Table)
    (hc : c ≠ cartesian) (hp : c ≠ polar) :
    ModelBase.pickCoord c this w =
      Outcome.thrown "Incorrect coordinates supplied" (this, w) := by
  simp [ModelBase.pickCoord, hc, hp]

/-- Witness of C3 at the value 2 on the sample engine. -/
theorem pickCoord_invalid_throws_witness :
    (2 : COORD) ≠ cartesian ∧ (2 : COORD) ≠ polar ∧
    ModelBase.pickCoord 2 sampleEngine sampleMachine =
      Outcome.thrown "Incorrect coordinates supplied" (sampleEngine, sampleMachine) :=
  ⟨by decide, by decide,
    pickCoord_invalid_throws 2 sampleEngine sampleMachine (by decide) (by decide)⟩

/-- C4: for `cartesian` and `polar`, `pickCoord` returns normally, leaves the process state
(heap contents, clock, console) and the fields `frames`, `current_frame`, `dT`, `Dcoef`,
`IC`, `R` as they were, and sets `solve` to the member function of the requested
coordinates, so that the next call through `solve` runs that function. -/
theorem pickCoord_valid_sets_only_solve {Table InitCondition : Type}
    (X : Externals Table InitCondition) (c : COORD) (this : ModelBase InitCondition)
    (w : Machine Table) (hc : c = cartesian ∨ c = polar) :
    ∃ e, ModelBase.pickCoord c this w = Outcome.ok (e, w) ∧
      e.frames = this.frames ∧ e.current_frame = this.current_frame ∧
      e.dT = this.dT ∧ e.Dcoef = this.Dcoef ∧ e.IC = this.IC ∧ e.R = this.R ∧
      e.solve =
        (if c = cartesian then Solver.formNextTimeStep else Solver.formNextTimeStepPolar) ∧
      ∀ w1 : Machine Table,
        (invokeSolve X e w1).1 =
          (if c = cartesian then X.formNextTimeStep e w1.heap
            else X.formNextTimeStepPolar e w1.heap).1 ∧
        (invokeSolve X e w1).2.heap =
          (if c = cartesian then X.formNextTimeStep e w1.heap
            else X.formNextTimeStepPolar e w1.heap).2 := by
  rcases hc with rfl | rfl
  · exact ⟨{ this with solve := Solver.formNextTimeStep }, by simp [ModelBase.pickCoord],
      rfl, rfl, rfl, rfl, rfl, rfl, by simp, fun w1 => by simp [invokeSolve]⟩
  · have hne : polar ≠ cartesian := by decide
    exact ⟨{ this with solve := Solver.formNextTimeStepPolar },
      by simp [ModelBase.pickCoord, hne], rfl, rfl, rfl, rfl, rfl, rfl, by simp [hne],
      fun w1 => by simp [invokeSolve, hne]⟩

/-- Witness of C4 at `polar` on the sample engine. -/
theorem pickCoord_valid_sets_only_solve_witness :
    ∃ e, ModelBase.pickCoord polar sampleEngine sampleMachine = Outcome.ok (e, sampleMachine) ∧
      e.frames = sampleEngine.frames ∧ e.current_frame = sampleEngine.current_frame ∧
      e.dT = sampleEngine.dT ∧ e.Dcoef = sampleEngine.Dcoef ∧ e.IC = sampleEngine.IC ∧
      e.R = sampleEngine.R ∧
      e.solve =
        (if polar = cartesian then Solver.formNextTimeStep
          else Solver.formNextTimeStepPolar) ∧
      ∀ w1 : Machine MatrixBase,
        (invokeSolve sampleX e w1).1 =
          (if polar = cartesian then sampleX.formNextTimeStep e w1.heap
            else sampleX.formNextTimeStepPolar e w1.heap).1 ∧
        (invokeSolve sampleX e w1).2.heap =
          (if polar = cartesian then sampleX.formNextTimeStep e w1.heap
            else sampleX.formNextTimeStepPolar e w1.heap).2 :=
  pickCoord_valid_sets_only_solve sampleX polar sampleEngine sampleMachine (Or.inr rfl)

/-! ## Running the model -/

/-- On a non-negative `double` the cast `(int)x` is the floor. -/
theorem truncToInt_of_nonneg (x : ℚ) (hx : 0 ≤ x) : truncToInt x = ⌊x⌋ := by
  simp [truncToInt, hx]

/-- Below 20 steps the report interval `(int)(steps / 20)` is 0. -/
theorem truncToInt_div_twenty_eq_zero (steps : ℚ) (h0 : 0 ≤ steps) (h20 : steps < 20) :
    truncToInt (steps / 20) = 0 := by
  rw [truncToInt_of_nonneg _ (by positivity), Int.floor_eq_iff]
  constructor
  · simp only [Int.cast_zero]; positivity
  · simp only [Int.cast_zero, zero_add]
    rw [div_lt_one (by norm_num)]
    exact h20

/-- From 20 steps on, and within the range of `int`, the report interval
`(int)(steps / 20)` is a positive `int`. -/
theorem truncToInt_div_twenty_pos (steps : ℚ) (h20 : 20 ≤ steps)
    (hmax : steps ≤ (INT_MAX : ℚ)) :
    1 ≤ truncToInt (steps / 20) ∧ truncToInt (steps / 20) ≤ INT_MAX := by
  have h0 : (0 : ℚ) ≤ steps / 20 := by positivity
  rw [truncToInt_of_nonneg _ h0]
  constructor
  · rw [Int.le_floor]
    simp only [Int.cast_one]
    rw [one_le_div (by norm_num)]
    exact h20
  · have h1 : ((⌊steps / 20⌋ : Int) : ℚ) ≤ steps / 20 := Int.floor_le _
    have h2 : steps / 20 ≤ steps := by
      rw [div_le_iff₀ (by norm_num)]
      linarith
    have h3 : ((⌊steps / 20⌋ : Int) : ℚ) ≤ ((INT_MAX : Int) : ℚ) := by linarith
    exact_mod_cast h3

/-- The loop of `runModel` ends when the counter is not below `steps`. -/
theorem runModelLoop_exit {Table InitCondition : Type} (X : Externals Table InitCondition)
    (steps : ℚ) (i : Int) (this : ModelBase InitCondition) (w : Machine Table)
    (h : ¬ (i : ℚ) < steps) :
    runModelLoop X steps i this w = Outcome.ok (this, w) := by
  rw [runModelLoop]
  simp [h]

/-- An iteration of the loop of `runModel` whose report interval is 0 evaluates
`(i + 1) % 0`. -/
theorem runModelLoop_interval_zero {Table InitCondition : Type}
    (X : Externals Table InitCondition) (steps : ℚ) (i : Int)
    (this : ModelBase InitCondition) (w : Machine Table)
    (h : (i : ℚ) < steps) (hi : i + 1 ≤ INT_MAX) (hd : truncToInt (steps / 20) = 0) :
    runModelLoop X steps i this w = Outcome.undefined UB.moduloByZero := by
  rw [runModelLoop]
  have hi' : ¬ INT_MAX < i + 1 := not_lt.mpr hi
  have hr : ¬ ((0 : Int) < -INT_MAX - 1 ∨ INT_MAX < 0) := by
    simp only [INT_MAX]
    omega
  simp only [h, hi', hd, hr, if_true, if_false, dite_false, ↓reduceIte, ↓reduceDIte]

/-- An iteration of the loop of `runModel` with a positive report interval: the optional
progress line, `Time::addTime(dT)`, the call through `solve`, then the next iteration. -/
theorem runModelLoop_iterate {Table InitCondition : Type}
    (X : Externals Table InitCondition) (steps : ℚ) (i : Int)
    (this : ModelBase InitCondition) (w : Machine Table)
    (h : (i : ℚ) < steps) (hi : i + 1 ≤ INT_MAX)
    (hd1 : 1 ≤ truncToInt (steps / 20)) (hd2 : truncToInt (steps / 20) ≤ INT_MAX) :
    ∃ c : List ConsoleMsg,
      runModelLoop X steps i this w =
        runModelLoop X steps (i + 1)
          (invokeSolve X this (Time.addTime this.dT { w with cout := c })).1
          (invokeSolve X this (Time.addTime this.dT { w with cout := c })).2 := by
  have hi' : ¬ INT_MAX < i + 1 := not_lt.mpr hi
  have hr : ¬ (truncToInt (steps / 20) < -INT_MAX - 1 ∨ INT_MAX < truncToInt (steps / 20)) := by
    simp only [INT_MAX] at hd2 ⊢
    omega
  have hz : truncToInt (steps / 20) ≠ 0 := by omega
  by_cases hm : Int.tmod (i + 1) (truncToInt (steps / 20)) = 0
  · refine ⟨w.cout ++ [ConsoleMsg.progress (Time.getTime w + this.dT) (i + 1)
      ((i : ℚ) / steps * 100)], ?_⟩
    rw [runModelLoop]
    simp only [h, hi', hr, hz, hm, if_true, if_false, dite_false, dite_true, ↓reduceIte,
      ↓reduceDIte]
  · refine ⟨w.cout, ?_⟩
    rw [runModelLoop]
    simp only [h, hi', hr, hz, hm, if_true, if_false, dite_false, dite_true, ↓reduceIte,
      ↓reduceDIte]

/-- The loop of `runModel` for `20 ≤ steps ≤ INT_MAX`, started at counter `i` with `k`
counter values left below `steps`: it ends normally after `k` iterations, each made of one
`Time::addTime(dT)` directly followed by one call through `solve`; the clock has advanced
by `k * dT`, and a property `P` of engine and heap that every call through `solve` carries
from index `n` to `n + 1` has moved on by `k`. -/
theorem runModelLoop_run {Table InitCondition : Type} (X : Externals Table InitCondition)
    (steps : ℚ) (h20 : 20 ≤ steps) (hmax : steps ≤ (INT_MAX : ℚ)) (dT0 : ℚ)
    (P : Nat → ModelBase InitCondition → List Table → Prop)
    (hstep : ∀ n e (w : Machine Table), e.dT = dT0 → P n e w.heap →
      (invokeSolve X e w).1.dT = dT0 ∧
        P (n + 1) (invokeSolve X e w).1 (invokeSolve X e w).2.heap) :
    ∀ (k : Nat) (i : Int) (n0 : Nat) (this : ModelBase InitCondition) (w : Machine Table),
      0 ≤ i → i + (k : Int) = ⌈steps⌉ → this.dT = dT0 → P n0 this w.heap →
      ∃ this' w', ∃ ss : List Solver, runModelLoop X steps i this w = Outcome.ok (this', w') ∧
        this'.dT = dT0 ∧ P (n0 + k) this' w'.heap ∧ ss.length = k ∧
        w'.calls = w.calls ++ ss.flatMap (fun s => [Call.addTime dT0, Call.solve s]) ∧
        w'.time = w.time + (k : ℚ) * dT0 := by
  obtain ⟨hd1, hd2⟩ := truncToInt_div_twenty_pos steps h20 hmax
  have hceil : ⌈steps⌉ ≤ INT_MAX := Int.ceil_le.mpr hmax
  intro k
  induction k with
  | zero =>
    intro i n0 this w _ hik hdT hP
    have hi : ¬ (i : ℚ) < steps := by
      rw [← Int.lt_ceil]
      simp only [Nat.cast_zero, add_zero] at hik
      omega
    exact ⟨this, w, [], runModelLoop_exit X steps i this w hi, hdT, hP, rfl, by simp, by simp⟩
  | succ k ih =>
    intro i n0 this w h0 hik hdT hP
    have hlt : (i : ℚ) < steps := by
      rw [← Int.lt_ceil]
      push_cast at hik
      omega
    have hi1 : i + 1 ≤ INT_MAX := by
      push_cast at hik
      omega
    obtain ⟨c, hc⟩ := runModelLoop_iterate X steps i this w hlt hi1 hd1 hd2
    obtain ⟨hdT1, hP1⟩ := hstep n0 this (Time.addTime this.dT { w with cout := c }) hdT hP
    obtain ⟨this', w', ss, hrun, hdT', hP', hlen, hcalls, htime⟩ :=
      ih (i + 1) (n0 + 1) _ _ (by omega) (by push_cast at hik; omega) hdT1 hP1
    refine ⟨this', w', this.solve :: ss, hc.trans hrun, hdT', ?_, by simp [hlen], ?_, ?_⟩
    · have : n0 + (k + 1) = n0 + 1 + k := by omega
      rw [this]
      exact hP'
    · rw [hcalls]
      simp [invokeSolve, Time.addTime, hdT]
    · rw [htime]
      simp only [invokeSolve, Time.addTime, hdT]
      push_cast
      ring

/-- For `20 ≤ steps ≤ INT_MAX` `runModel` returns normally after `⌈steps⌉` iterations:
the statement of `runModelLoop_run` for the whole call. -/
theorem runModel_run {Table InitCondition : Type} (X : Externals Table InitCondition)
    (steps : ℚ) (h20 : 20 ≤ steps) (hmax : steps ≤ (INT_MAX : ℚ))
    (P : Nat → ModelBase InitCondition → List Table → Prop)
    (this : ModelBase InitCondition) (w : Machine Table)
    (hstep : ∀ n e (w : Machine Table), e.dT = this.dT → P n e w.heap →
      (invokeSolve X e w).1.dT = this.dT ∧
        P (n + 1) (invokeSolve X e w).1 (invokeSolve X e w).2.heap)
    (hP : P 0 this w.heap) :
    ∃ this' w', ∃ ss : List Solver, ModelBase.runModel X steps this w = Outcome.ok (this', w') ∧
      this'.dT = this.dT ∧ P ⌈steps⌉.toNat this' w'.heap ∧ ss.length = ⌈steps⌉.toNat ∧
      w'.calls = w.calls ++ ss.flatMap (fun s => [Call.addTime this.dT, Call.solve s]) ∧
      w'.time = w.time + (⌈steps⌉.toNat : ℚ) * this.dT := by
  have hpos : 0 ≤ ⌈steps⌉ := Int.ceil_nonneg (by linarith)
  obtain ⟨this', w', ss, hrun, hdT', hP', hlen, hcalls, htime⟩ :=
    runModelLoop_run X steps h20 hmax this.dT P hstep ⌈steps⌉.toNat 0 0 this w (le_refl _)
      (by rw [Int.toNat_of_nonneg hpos]; simp) rfl hP
  refine ⟨this', { w' with cout := w'.cout ++ [ConsoleMsg.simulationComplete] }, ss, ?_, hdT',
    ?_, hlen, hcalls, htime⟩
  · simp [ModelBase.runModel, hrun]
  · simpa using hP'

/-- The call through `solve` keeps `dT` when both stepping functions do. -/
theorem invokeSolve_dT {Table InitCondition : Type} (X : Externals Table InitCondition)
    (hc : ∀ e h, (X.formNextTimeStep e h).1.dT = e.dT)
    (hp : ∀ e h, (X.formNextTimeStepPolar e h).1.dT = e.dT)
    (e : ModelBase InitCondition) (w : Machine Table) :
    (invokeSolve X e w).1.dT = e.dT := by
  unfold invokeSolve
  cases e.solve
  · exact hc e w.heap
  · exact hp e w.heap

/-- The call through `solve` appends one frame when both stepping functions do. -/
theorem invokeSolve_frames_length {Table InitCondition : Type}
    (X : Externals Table InitCondition)
    (hc : ∀ e h, (X.formNextTimeStep e h).1.frames.length = e.frames.length + 1)
    (hp : ∀ e h, (X.formNextTimeStepPolar e h).1.frames.length = e.frames.length + 1)
    (e : ModelBase InitCondition) (w : Machine Table) :
    (invokeSolve X e w).1.frames.length = e.frames.length + 1 := by
  unfold invokeSolve
  cases e.solve
  · exact hc e w.heap
  · exact hp e w.heap

/-- For a whole number of steps `S` with `20 ≤ S ≤ INT_MAX`, stepping functions that keep
`dT` and append exactly one frame per call: `runModel(S)` returns normally, the history
has grown by `S` frames and the clock has advanced by `S * dT`. -/
theorem runModel_history_clock_from_twenty {Table InitCondition : Type}
    (X : Externals Table InitCondition) (S : Nat) (this : ModelBase InitCondition)
    (w : Machine Table) (h20 : 20 ≤ S) (hmax : (S : Int) ≤ INT_MAX)
    (hc : ∀ e h, (X.formNextTimeStep e h).1.dT = e.dT)
    (hp : ∀ e h, (X.formNextTimeStepPolar e h).1.dT = e.dT)
    (hac : ∀ e h, (X.formNextTimeStep e h).1.frames.length = e.frames.length + 1)
    (hap : ∀ e h, (X.formNextTimeStepPolar e h).1.frames.length = e.frames.length + 1) :
    ∃ this' w', ModelBase.runModel X (S : ℚ) this w = Outcome.ok (this', w') ∧
      this'.frames.length = this.frames.length + S ∧
      w'.time = w.time + (S : ℚ) * this.dT := by
  have h20q : (20 : ℚ) ≤ (S : ℚ) := by exact_mod_cast h20
  have hmaxq : (S : ℚ) ≤ (INT_MAX : ℚ) := by exact_mod_cast hmax
  have hceil : ⌈(S : ℚ)⌉.toNat = S := by
    rw [show (S : ℚ) = ((S : Int) : ℚ) by push_cast; rfl, Int.ceil_intCast]
    simp
  obtain ⟨this', w', ss, hrun, _, hP, _, _, htime⟩ :=
    runModel_run X (S : ℚ) h20q hmaxq
      (fun n e _ => e.frames.length = this.frames.length + n) this w
      (fun n e w1 hdT hlen => by
        refine ⟨(invokeSolve_dT X hc hp e w1).trans hdT, ?_⟩
        show (invokeSolve X e w1).1.frames.length = this.frames.length + (n + 1)
        rw [invokeSolve_frames_length X hac hap e w1, hlen]
        omega)
      rfl
  rw [hceil] at hP htime
  exact ⟨this', w', hrun, hP, htime⟩

/-- C2: for every engine, process state and `steps ≤ 0`, `runModel(steps)` returns normally
without calling `Time::addTime` or `solve`: the engine (history included), the heap holding
the frames, the clock and the call log are as before; only the closing console lines are
written. In particular, on an engine just constructed on the initial machine, `runModel(0)`
leaves a history of length 1 and the clock at 0. -/
theorem runModel_nonpositive_noop {Table InitCondition : Type}
    (X : Externals Table InitCondition) (steps : ℚ) (this : ModelBase InitCondition)
    (w : Machine Table) (dT Dcoef : ℚ) (ic : InitCondition) (R : ℚ → ℚ)
    (h : steps ≤ 0) :
    (∃ w', ModelBase.runModel X steps this w = Outcome.ok (this, w') ∧
      w'.time = w.time ∧ w'.heap = w.heap ∧ w'.calls = w.calls ∧
      w'.cout = w.cout ++ [ConsoleMsg.simulationComplete]) ∧
    (∃ e w0 w1, ModelBase.ctor X dT Dcoef ic R (Machine.init Table) = Outcome.ok (e, w0) ∧
      ModelBase.runModel X 0 e w0 = Outcome.ok (e, w1) ∧
      e.frames.length = 1 ∧ w1.time = 0 ∧ w1.calls = []) := by
  have key : ∀ (s : ℚ) (e : ModelBase InitCondition) (m : Machine Table), s ≤ 0 →
      ModelBase.runModel X s e m =
        Outcome.ok (e, { m with cout := m.cout ++ [ConsoleMsg.simulationComplete] }) := by
    intro s e m hs
    have hlt : ¬ ((0 : Int) : ℚ) < s := by
      simp only [Int.cast_zero, not_lt]
      exact hs
    simp [ModelBase.runModel, runModelLoop_exit X s 0 e m hlt]
  refine ⟨⟨_, key steps this w h, rfl, rfl, rfl, rfl⟩, ?_⟩
  exact ⟨_, _, _, rfl, key 0 _ _ (le_refl _), rfl, rfl, rfl⟩

/-- Witness of C2 at `steps = -3` on the sample engine. -/
theorem runModel_nonpositive_noop_witness :
    (-3 : ℚ) ≤ 0 ∧
    (∃ w', ModelBase.runModel sampleX (-3) sampleEngine sampleMachine =
        Outcome.ok (sampleEngine, w') ∧
      w'.time = sampleMachine.time ∧ w'.heap = sampleMachine.heap ∧
      w'.calls = sampleMachine.calls ∧
      w'.cout = sampleMachine.cout ++ [ConsoleMsg.simulationComplete]) :=
  ⟨by norm_num,
    (runModel_nonpositive_noop sampleX (-3) sampleEngine sampleMachine (1 / 10) 1
      [0, 0, 1, 0, 0] (fun _ => 0) (by norm_num)).1⟩

/-- C1 (the code at the failing input): `runModel(1)` does not return. On every engine and
process state its first iteration evaluates `(0 + 1) % (int)(1 / 20)`, an integer modulo
by zero, before `Time::addTime` and `solve` are called; so the history does not reach
length 2 and the clock does not advance by `dT`. -/
theorem runModel_one_step_undefined {Table InitCondition : Type}
    (X : Externals Table InitCondition) (this : ModelBase InitCondition)
    (w : Machine Table) :
    ModelBase.runModel X 1 this w = Outcome.undefined UB.moduloByZero := by
  have h1 : ((0 : Int) : ℚ) < 1 := by norm_num
  have h2 : (0 : Int) + 1 ≤ INT_MAX := by decide
  have h3 : truncToInt ((1 : ℚ) / 20) = 0 :=
    truncToInt_div_twenty_eq_zero 1 (by norm_num) (by norm_num)
  simp [ModelBase.runModel, runModelLoop_interval_zero X 1 0 this w h1 h2 h3]

/-- C8 (the code on the claimed range): for every whole step count `S` in `[1, 19]` the
report interval `(int)(S / 20)` is 0, it is not clamped, and `runModel(S)` runs into the
integer modulo by zero in its first iteration: nothing is reported and no step is taken. -/
theorem runModel_below_twenty_interval_zero {Table InitCondition : Type}
    (X : Externals Table InitCondition) (S : Int) (this : ModelBase InitCondition)
    (w : Machine Table) (h1 : 1 ≤ S) (h19 : S ≤ 19) :
    truncToInt ((S : ℚ) / 20) = 0 ∧
    ModelBase.runModel X (S : ℚ) this w = Outcome.undefined UB.moduloByZero := by
  have hpos : (0 : ℚ) ≤ (S : ℚ) := by exact_mod_cast (by omega : (0 : Int) ≤ S)
  have hlt : (S : ℚ) < 20 := by exact_mod_cast (by omega : S < 20)
  have h3 := truncToInt_div_twenty_eq_zero (S : ℚ) hpos hlt
  have hi : ((0 : Int) : ℚ) < (S : ℚ) := by exact_mod_cast (by omega : (0 : Int) < S)
  have h2 : (0 : Int) + 1 ≤ INT_MAX := by decide
  refine ⟨h3, ?_⟩
  simp [ModelBase.runModel, runModelLoop_interval_zero X (S : ℚ) 0 this w hi h2 h3]

/-- Witness of C8 at `S = 7` on the sample engine. -/
theorem runModel_below_twenty_interval_zero_witness :
    (1 : Int) ≤ 7 ∧ (7 : Int) ≤ 19 ∧
    truncToInt (((7 : Int) : ℚ) / 20) = 0 ∧
    ModelBase.runModel sampleX ((7 : Int) : ℚ) sampleEngine sampleMachine =
      Outcome.undefined UB.moduloByZero :=
  ⟨by decide, by decide,
    runModel_below_twenty_interval_zero sampleX 7 sampleEngine sampleMachine
      (by decide) (by decide)⟩

/-- When the `int` product `(j - 1) * N` is non-negative and at most `INT_MAX`, the offset
of the cell in column `i` of row `j` is `i + (j - 1) * N`. -/
theorem offset_eq_some (N i j : Int) (h0 : 0 ≤ (j - 1) * N) (h1 : (j - 1) * N ≤ INT_MAX) :
    offset N i j = some (i + (j - 1) * N) := by
  unfold offset
  rw [if_neg]
  simp only [INT_MAX] at h1 ⊢
  omega

/-- When the `int` product `(j - 1) * N` exceeds `INT_MAX` there is no offset. -/
theorem offset_eq_none (N i j : Int) (h : INT_MAX < (j - 1) * N) : offset N i j = none := by
  unfold offset
  rw [if_pos (Or.inr h)]

/-- The inner loop of `printFrames` on row `j` of a buffer that reaches up to row `j`, the
product `(j - 1) * N` being within `int`: from column `i` on it appends the `N - i` values
stored from offset `i + (j - 1) * N` on. -/
theorem printRow_ok (V : List ℚ) (N j : Int) (hj : 1 ≤ j)
    (hV : j * N ≤ (V.length : Int)) (hov : (j - 1) * N ≤ INT_MAX) :
    ∀ (n : Nat) (i : Int) (line : List ℚ), 0 ≤ i → i + (n : Int) = N →
      printRow V N j i line =
        Outcome.ok (line ++ (V.drop (i + (j - 1) * N).toNat).take n) := by
  intro n
  induction n with
  | zero =>
    intro i line _ hin
    rw [printRow]
    have : ¬ i < N := by simp at hin; omega
    simp [this]
  | succ n ih =>
    intro i line hi hin
    have hN : 0 ≤ N := by omega
    have hp : 0 ≤ (j - 1) * N := mul_nonneg (by omega) hN
    have hsplit : j * N = (j - 1) * N + N := by ring
    have hlt : i < N := by push_cast at hin; omega
    have hk : (i + (j - 1) * N).toNat < V.length := by omega
    have hnext : (i + 1 + (j - 1) * N).toNat = (i + (j - 1) * N).toNat + 1 := by omega
    have hread : readAt V (i + (j - 1) * N) = some (V[(i + (j - 1) * N).toNat]) := by
      have h0 : 0 ≤ i + (j - 1) * N := by omega
      simp [readAt, h0, List.getElem?_eq_getElem hk]
    rw [printRow]
    simp only [hlt, if_true, offset_eq_some N i j hp hov, hread]
    rw [ih (i + 1) _ (by omega) (by push_cast at hin ⊢; omega), hnext,
      List.drop_eq_getElem_cons hk, List.take_succ_cons]
    simp

/-- The row loop of `printFrames` on a buffer holding at least `m * n` values, the product
`(m - 1) * n` being within `int`: it returns normally and appends rows `m` down to `1`,
one line each. -/
theorem printRows_ok (V : List ℚ) (n : Nat) :
    ∀ (m : Nat) (fout : List (List ℚ)), m * n ≤ V.length → (m - 1) * n ≤ 2147483647 →
      printRows V (n : Int) (m : Int) fout = Outcome.ok (fout ++ rowsDown V n m) := by
  intro m
  induction m with
  | zero =>
    intro fout _ _
    rw [printRows]
    simp [rowsDown]
  | succ m ih =>
    intro fout hV hov
    have hV' : ((m + 1 : Nat) : Int) * (n : Int) ≤ (V.length : Int) := by exact_mod_cast hV
    have hsub : ((m + 1 : Nat) : Int) - 1 = (m : Int) := by push_cast; ring
    have hov' : (((m + 1 : Nat) : Int) - 1) * (n : Int) ≤ INT_MAX := by
      rw [hsub]
      simp only [Nat.add_sub_cancel] at hov
      have : ((m * n : Nat) : Int) ≤ 2147483647 := by exact_mod_cast hov
      simpa [INT_MAX] using this
    have hrow := printRow_ok V (n : Int) ((m + 1 : Nat) : Int) (by push_cast; omega) hV' hov'
      n 0 [] (le_refl _) (by simp)
    have hoff : ((0 : Int) + (((m + 1 : Nat) : Int) - 1) * (n : Int)).toNat = m * n := by
      rw [hsub, zero_add]
      exact_mod_cast Int.toNat_natCast (m * n)
    have hmn : (m - 1) * n ≤ m * n := Nat.mul_le_mul_right n (Nat.sub_le m 1)
    have hm : m * n ≤ V.length := by
      have : m * n ≤ (m + 1) * n := Nat.mul_le_mul_right n (Nat.le_succ m)
      omega
    have hovm : (m - 1) * n ≤ 2147483647 := by
      simp only [Nat.add_sub_cancel] at hov
      omega
    rw [printRows]
    have hpos : (0 : Int) < ((m + 1 : Nat) : Int) := by push_cast; omega
    simp only [hpos, if_true, hrow, hoff, List.nil_append]
    rw [hsub, ih _ hm hovm]
    simp [rowsDown]

/-- The row loop of `printFrames` on a grid with `(M - 1) * N > INT_MAX`: the first
cell it reads is column 0 of row `M`, and the `int` product for its offset overflows. -/
theorem printRows_product_overflow (V : List ℚ) (N M : Int) (fout : List (List ℚ))
    (hN : 0 < N) (hM : 0 < M) (h : INT_MAX < (M - 1) * N) :
    printRows V N M fout = Outcome.undefined UB.signedOverflow := by
  have hrow : printRow V N M 0 [] = Outcome.undefined UB.signedOverflow := by
    rw [printRow]
    simp only [hN, if_true, offset_eq_none N 0 M h]
  rw [printRows]
  simp only [hM, if_true, hrow]

/-- The spec rows of a buffer: there are `m` of them. -/
theorem rowsDown_length (V : List ℚ) (n m : Nat) : (rowsDown V n m).length = m := by
  induction m with
  | zero => rfl
  | succ m ih => simp [rowsDown, ih]

/-- The spec rows of a buffer holding at least `m * n` values: each has `n` fields. -/
theorem rowsDown_row_length (V : List ℚ) (n : Nat) :
    ∀ m, m * n ≤ V.length → ∀ row ∈ rowsDown V n m, row.length = n := by
  intro m
  induction m with
  | zero => intro _ row h; simp [rowsDown] at h
  | succ m ih =>
    intro hV row h
    have hle : m * n + n ≤ V.length := by
      have : (m + 1) * n = m * n + n := by ring
      omega
    simp only [rowsDown, List.mem_cons] at h
    rcases h with rfl | h
    · simp only [List.length_take, List.length_drop]
      omega
    · exact ih (by omega) row h

/-- The field in column `i` of the line for row `j + 1` is the value at flat offset
`i + j * n`. -/
theorem rowsDown_field (V : List ℚ) (n : Nat) :
    ∀ (m j i : Nat), j < m → i < n →
      ((rowsDown V n m)[m - 1 - j]?).bind (fun row => row[i]?) = V[i + j * n]? := by
  intro m
  induction m with
  | zero => intro j i hj; omega
  | succ m ih =>
    intro j i hj hi
    by_cases hjm : j = m
    · subst hjm
      simp [rowsDown, List.getElem?_take, hi, List.getElem?_drop, Nat.add_comm]
    · have hlt : j < m := by omega
      have hidx : m + 1 - 1 - j = (m - 1 - j) + 1 := by omega
      rw [hidx]
      simp only [rowsDown, List.getElem?_cons_succ]
      exact ih j i hlt hi

/-- Read from the last line up, the spec rows are the first `m * n` values of the buffer:
every slot occurs exactly once, in storage order. -/
theorem rowsDown_reverse_flatten (V : List ℚ) (n : Nat) :
    ∀ m, (rowsDown V n m).reverse.flatten = V.take (m * n) := by
  intro m
  induction m with
  | zero => simp [rowsDown]
  | succ m ih =>
    have : (m + 1) * n = m * n + n := by ring
    simp only [rowsDown, List.reverse_cons, List.flatten_append, ih, List.flatten_cons,
      List.flatten_nil, List.append_nil, this, List.take_add]

/-- For `int` values `M`, `N ≥ 0` the bound `(M - 1) * N ≤ INT_MAX` in natural numbers. -/
theorem rows_bound_toNat (N M : Int) (hN : 0 ≤ N) (hM : 0 ≤ M)
    (hov : (M - 1) * N ≤ INT_MAX) : (M.toNat - 1) * N.toNat ≤ 2147483647 := by
  rcases Nat.eq_zero_or_pos M.toNat with h0 | hpos
  · simp [h0]
  · have hNn : ((N.toNat : Nat) : Int) = N := Int.toNat_of_nonneg hN
    have hMn : ((M.toNat : Nat) : Int) = M := Int.toNat_of_nonneg hM
    have : (((M.toNat - 1) * N.toNat : Nat) : Int) ≤ 2147483647 := by
      rw [Nat.cast_mul, Nat.cast_sub hpos, hNn, hMn]
      simpa [INT_MAX] using hov
    exact_mod_cast this

/-- C9 (as amended): for all `int` values `N, M > 0` whose product `(M - 1) * N` is within
`int`, the cell in column `i ∈ [0, N)` of row `j ∈ [1, M]` is read at offset
`i + (j - 1) * N`; the offset lies in `[0, N * M)`, distinct cells have distinct offsets
and every slot of `[0, N * M)` is the offset of a cell. On a buffer of `N * M` values every
read of `printFrames` is inside the buffer, and the `M` lines of `N` fields written for the
frame, taken from the last to the first, are the buffer itself: every slot is read exactly
once. -/
theorem offset_one_to_one (N M : Int) (hN : 0 < N) (hM : 0 < M) (hNmax : N ≤ INT_MAX)
    (hMmax : M ≤ INT_MAX) (hov : (M - 1) * N ≤ INT_MAX) :
    (∀ i j, 0 ≤ i → i < N → 1 ≤ j → j ≤ M →
      offset N i j = some (i + (j - 1) * N) ∧
        0 ≤ i + (j - 1) * N ∧ i + (j - 1) * N < N * M) ∧
    (∀ i j i' j', 0 ≤ i → i < N → 1 ≤ j → j ≤ M → 0 ≤ i' → i' < N → 1 ≤ j' → j' ≤ M →
      offset N i j = offset N i' j' → i = i' ∧ j = j') ∧
    (∀ k, 0 ≤ k → k < N * M →
      ∃ i j, 0 ≤ i ∧ i < N ∧ 1 ≤ j ∧ j ≤ M ∧ offset N i j = some k) ∧
    (∀ V : List ℚ, (V.length : Int) = N * M →
      (∀ i j, 0 ≤ i → i < N → 1 ≤ j → j ≤ M →
        ∃ v, (offset N i j).bind (readAt V) = some v) ∧
      ∃ lines, printRows V N M [] = Outcome.ok lines ∧ lines.length = M.toNat ∧
        (∀ row ∈ lines, row.length = N.toNat) ∧ lines.reverse.flatten = V) := by
  have _ := hNmax
  have _ := hMmax
  have hsome : ∀ i j, 1 ≤ j → j ≤ M → offset N i j = some (i + (j - 1) * N) := by
    intro i j hj hjM
    have h0 : 0 ≤ (j - 1) * N := mul_nonneg (by omega) (le_of_lt hN)
    have h1 : (j - 1) * N ≤ (M - 1) * N :=
      mul_le_mul_of_nonneg_right (by omega) (le_of_lt hN)
    exact offset_eq_some N i j h0 (le_trans h1 hov)
  have hbound : ∀ i j, 0 ≤ i → i < N → 1 ≤ j → j ≤ M →
      0 ≤ i + (j - 1) * N ∧ i + (j - 1) * N < N * M := by
    intro i j hi hiN hj hjM
    have h1 : 0 ≤ (j - 1) * N := mul_nonneg (by omega) (le_of_lt hN)
    have h2 : (j - 1) * N + N ≤ N * M := by
      have : (j - 1) * N + N = N * j := by ring
      rw [this]
      exact mul_le_mul_of_nonneg_left hjM (le_of_lt hN)
    constructor <;> omega
  refine ⟨fun i j hi hiN hj hjM => ⟨hsome i j hj hjM, hbound i j hi hiN hj hjM⟩, ?_, ?_, ?_⟩
  · intro i j i' j' hi hiN hj hjM hi' hiN' hj' hjM' h
    rw [hsome i j hj hjM, hsome i' j' hj' hjM', Option.some.injEq] at h
    have hmod : (i + (j - 1) * N) % N = (i' + (j' - 1) * N) % N := by rw [h]
    rw [Int.add_mul_emod_self, Int.add_mul_emod_self, Int.emod_eq_of_lt hi hiN,
      Int.emod_eq_of_lt hi' hiN'] at hmod
    subst hmod
    have hmul : (j - 1) * N = (j' - 1) * N := by omega
    have := mul_right_cancel₀ (ne_of_gt hN) hmul
    exact ⟨rfl, by omega⟩
  · intro k hk hkNM
    have hq0 : 0 ≤ k / N := Int.ediv_nonneg hk (le_of_lt hN)
    have hqM : k / N < M := Int.ediv_lt_of_lt_mul hN (by rw [mul_comm]; exact hkNM)
    refine ⟨k % N, k / N + 1, Int.emod_nonneg k (ne_of_gt hN), Int.emod_lt_of_pos k hN,
      by omega, by omega, ?_⟩
    rw [hsome (k % N) (k / N + 1) (by omega) (by omega), add_sub_cancel_right, mul_comm,
      Int.emod_add_ediv k N]
  · intro V hV
    constructor
    · intro i j hi hiN hj hjM
      obtain ⟨h0, h1⟩ := hbound i j hi hiN hj hjM
      have hk : (i + (j - 1) * N).toNat < V.length := by omega
      exact ⟨V[(i + (j - 1) * N).toNat], by
        simp [hsome i j hj hjM, readAt, h0, List.getElem?_eq_getElem hk]⟩
    · have hNn : ((N.toNat : Nat) : Int) = N := Int.toNat_of_nonneg (le_of_lt hN)
      have hMn : ((M.toNat : Nat) : Int) = M := Int.toNat_of_nonneg (le_of_lt hM)
      have hlen : M.toNat * N.toNat = V.length := by
        have : ((M.toNat * N.toNat : Nat) : Int) = (V.length : Int) := by
          push_cast
          rw [hNn, hMn, hV, mul_comm]
        exact_mod_cast this
      have hrun := printRows_ok V N.toNat M.toNat [] (le_of_eq hlen)
        (rows_bound_toNat N M (le_of_lt hN) (le_of_lt hM) hov)
      rw [hNn, hMn] at hrun
      refine ⟨_, hrun, by simp [rowsDown_length], ?_, ?_⟩
      · intro row hrow
        rw [List.nil_append] at hrow
        exact rowsDown_row_length V N.toNat M.toNat (le_of_eq hlen) row hrow
      · rw [List.nil_append, rowsDown_reverse_flatten, hlen, List.take_length]

/-- Witness of C9 (as amended) on a grid of width 3 and height 2. -/
theorem offset_one_to_one_witness :
    (∀ i j, 0 ≤ i → i < 3 → 1 ≤ j → j ≤ 2 →
      offset 3 i j = some (i + (j - 1) * 3) ∧
        0 ≤ i + (j - 1) * 3 ∧ i + (j - 1) * 3 < 3 * 2) ∧
    (∀ i j i' j', 0 ≤ i → i < 3 → 1 ≤ j → j ≤ 2 → 0 ≤ i' → i' < 3 → 1 ≤ j' → j' ≤ 2 →
      offset 3 i j = offset 3 i' j' → i = i' ∧ j = j') ∧
    (∀ k, 0 ≤ k → k < 3 * 2 →
      ∃ i j, 0 ≤ i ∧ i < 3 ∧ 1 ≤ j ∧ j ≤ 2 ∧ offset 3 i j = some k) ∧
    (∀ V : List ℚ, (V.length : Int) = 3 * 2 →
      (∀ i j, 0 ≤ i → i < 3 → 1 ≤ j → j ≤ 2 →
        ∃ v, (offset 3 i j).bind (readAt V) = some v) ∧
      ∃ lines, printRows V 3 2 [] = Outcome.ok lines ∧ lines.length = (2 : Int).toNat ∧
        (∀ row ∈ lines, row.length = (3 : Int).toNat) ∧ lines.reverse.flatten = V) :=
  offset_one_to_one 3 2 (by decide) (by decide) (by decide) (by decide) (by decide)

/-- C9 (counterexample): for the `int` values `N = 65536` and `M = 32769`, both positive,
the cell in column 0 of row `M` has no offset: the product `(32769 - 1) * 65536 = 2^31`
overflows `int`, so the offset is not `i + (j - 1) * N`, and on every buffer the row loop of
`printFrames` runs into undefined behaviour at its first read instead of reading the
cells. -/
theorem offset_overflow_counterexample :
    (0 : Int) < 65536 ∧ (0 : Int) < 32769 ∧ (65536 : Int) ≤ INT_MAX ∧
    (32769 : Int) ≤ INT_MAX ∧
    offset 65536 0 32769 = none ∧
    offset 65536 0 32769 ≠ some (0 + (32769 - 1) * 65536) ∧
    ∀ (V : List ℚ) (fout : List (List ℚ)),
      printRows V 65536 32769 fout = Outcome.undefined UB.signedOverflow := by
  have h : INT_MAX < ((32769 : Int) - 1) * 65536 := by
    simp only [INT_MAX]
    norm_num
  have hnone : offset 65536 0 32769 = none := offset_eq_none 65536 0 32769 h
  refine ⟨by norm_num, by norm_num, by simp only [INT_MAX]; norm_num,
    by simp only [INT_MAX]; norm_num, hnone, ?_, ?_⟩
  · rw [hnone]
    exact fun hc => Option.noConfusion hc
  · intro V fout
    exact printRows_product_overflow V 65536 32769 fout (by norm_num) (by norm_num) h

/-- The frame loop of `printFrames` with a non-zero progress interval `len / 20` over
frames that point to well-formed tables: it returns normally and appends the lines of
every frame in order, each frame followed by one blank line. -/
theorem printFramesLoop_ok {Table InitCondition : Type} (X : Externals Table InitCondition)
    (heap : List Table) (len : Int) (size : Nat) (hd : Int.tdiv len 20 ≠ 0) :
    ∀ (frames : List Nat) (count : Int) (cout : List ConsoleMsg) (fout : List (List ℚ)),
      (∀ f ∈ frames, validFrame X heap f) →
      ∃ cout', printFramesLoop X heap len size frames count cout fout =
        Outcome.ok (cout', fout ++ historyLines X heap frames) := by
  intro frames
  induction frames with
  | nil =>
    intro count cout fout _
    exact ⟨cout, by simp [printFramesLoop, historyLines]⟩
  | cons f rest ih =>
    intro count cout fout hvalid
    obtain ⟨t, ht, hN, hM, hV, hov⟩ := hvalid f (List.mem_cons_self f rest)
    have hNn : (((X.base t).N.toNat : Nat) : Int) = (X.base t).N := Int.toNat_of_nonneg hN
    have hMn : (((X.base t).M.toNat : Nat) : Int) = (X.base t).M := Int.toNat_of_nonneg hM
    have hlen : (X.base t).M.toNat * (X.base t).N.toNat ≤ (X.base t).V.length := by
      have : (((X.base t).M.toNat * (X.base t).N.toNat : Nat) : Int) ≤
          ((X.base t).V.length : Int) := by
        push_cast
        rw [hNn, hMn]
        exact hV
      exact_mod_cast this
    have hrows := printRows_ok (X.base t).V (X.base t).N.toNat (X.base t).M.toNat fout hlen
      (rows_bound_toNat _ _ hN hM hov)
    rw [hNn, hMn] at hrows
    obtain ⟨cout', hrest⟩ := ih (count + 1)
      (if Int.tmod (count + 1) (Int.tdiv len 20) = 0 then
        cout ++ [ConsoleMsg.printing (((count + 1 : Int) : ℚ) / (size : ℚ) * 100)]
      else cout)
      (fout ++ rowsDown (X.base t).V (X.base t).N.toNat (X.base t).M.toNat ++ [[]])
      (fun g hg => hvalid g (List.mem_cons_of_mem f hg))
    refine ⟨cout', ?_⟩
    simp only [printFramesLoop, hd, if_false, ht, hrows, hrest, ↓reduceIte]
    simp [historyLines, List.flatMap_cons, ht, frameLines]

/-- From 20 recorded frames on (the number of frames being an `int` value), all pointing to
well-formed tables, `printFrames` returns normally; engine, heap and clock are unchanged
and the sink receives the lines of every frame in history order, each frame followed by one
blank line. -/
theorem printFrames_from_twenty {Table InitCondition : Type}
    (X : Externals Table InitCondition) (this : ModelBase InitCondition) (w : Machine Table)
    (fout : List (List ℚ)) (h20 : 20 ≤ this.frames.length)
    (hsize : (this.frames.length : Int) ≤ INT_MAX)
    (hvalid : ∀ f ∈ this.frames, validFrame X w.heap f) :
    ∃ w', ModelBase.printFrames X this w fout =
        Outcome.ok (this, w', fout ++ historyLines X w.heap this.frames) ∧
      w'.heap = w.heap ∧ w'.time = w.time := by
  have _ := hsize
  have hd : Int.tdiv (this.frames.length : Int) 20 ≠ 0 := by
    rw [Int.tdiv_eq_ediv (by omega) (by omega)]
    omega
  obtain ⟨cout', hloop⟩ :=
    printFramesLoop_ok X w.heap (this.frames.length : Int) this.frames.length hd this.frames 0
      w.cout fout hvalid
  exact ⟨{ w with cout := cout' ++ [ConsoleMsg.framesPrinted] },
    by simp only [ModelBase.printFrames, hloop], rfl, rfl⟩

/-- The lines of a well-formed frame of width `N` and height `M`: exactly `M` lines of
exactly `N` fields each, then one blank line; the line at position `M - j` (row `j`, rows
running from `M` down to `1`) has in column `i` the value the code reads at the offset of
cell `(i, j)`, which is `i + (j - 1) * N`. -/
theorem frameLines_shape (t : MatrixBase) (hN : 0 ≤ t.N) (hM : 0 ≤ t.M)
    (hV : t.M * t.N ≤ (t.V.length : Int)) (hov : (t.M - 1) * t.N ≤ INT_MAX) :
    ∃ rows, frameLines t = rows ++ [[]] ∧ rows.length = t.M.toNat ∧
      (∀ row ∈ rows, row.length = t.N.toNat) ∧
      ∀ j i : Nat, 1 ≤ j → (j : Int) ≤ t.M → (i : Int) < t.N →
        offset t.N i j = some ((i : Int) + ((j : Int) - 1) * t.N) ∧
        (rows[t.M.toNat - j]?).bind (fun row => row[i]?) =
          (offset t.N i j).bind (readAt t.V) := by
  have hNn : ((t.N.toNat : Nat) : Int) = t.N := Int.toNat_of_nonneg hN
  have hMn : ((t.M.toNat : Nat) : Int) = t.M := Int.toNat_of_nonneg hM
  have hlen : t.M.toNat * t.N.toNat ≤ t.V.length := by
    have : ((t.M.toNat * t.N.toNat : Nat) : Int) ≤ (t.V.length : Int) := by
      push_cast
      rw [hNn, hMn]
      exact hV
    exact_mod_cast this
  refine ⟨rowsDown t.V t.N.toNat t.M.toNat, rfl, rowsDown_length _ _ _,
    rowsDown_row_length _ _ _ hlen, ?_⟩
  intro j i hj hjM hiN
  have h1 : j - 1 < t.M.toNat := by omega
  have h2 : i < t.N.toNat := by omega
  have hfield := rowsDown_field t.V t.N.toNat t.M.toNat (j - 1) i h1 h2
  have hidx : t.M.toNat - 1 - (j - 1) = t.M.toNat - j := by omega
  rw [hidx] at hfield
  have hp0 : 0 ≤ ((j : Int) - 1) * t.N := mul_nonneg (by omega) hN
  have hp1 : ((j : Int) - 1) * t.N ≤ (t.M - 1) * t.N :=
    mul_le_mul_of_nonneg_right (by omega) hN
  have hsome := offset_eq_some t.N i j hp0 (le_trans hp1 hov)
  refine ⟨hsome, ?_⟩
  rw [hfield, hsome]
  have hoff : (i : Int) + ((j : Int) - 1) * t.N = ((i + (j - 1) * t.N.toNat : Nat) : Int) := by
    push_cast
    rw [hNn, Nat.cast_sub hj]
    simp
  rw [hoff]
  simp only [Option.some_bind]
  unfold readAt
  rw [if_pos (Int.natCast_nonneg _), Int.toNat_natCast]

/-- C5 (the code at the failing input): on a history of 1 to 19 frames `printFrames` does
not write the frames. For the first frame it evaluates `(++count) % (len / 20)` with
`len / 20 == 0`, an integer modulo by zero, before anything reaches the sink. -/
theorem printFrames_short_history_undefined {Table InitCondition : Type}
    (X : Externals Table InitCondition) (this : ModelBase InitCondition) (w : Machine Table)
    (fout : List (List ℚ)) (h1 : 1 ≤ this.frames.length) (h19 : this.frames.length ≤ 19) :
    ModelBase.printFrames X this w fout = Outcome.undefined UB.moduloByZero := by
  have hd : Int.tdiv (this.frames.length : Int) 20 = 0 := by
    rw [Int.tdiv_eq_ediv (by omega) (by omega)]
    omega
  cases hf : this.frames with
  | nil => simp [hf] at h1
  | cons f rest =>
    rw [hf] at hd
    simp only [ModelBase.printFrames, hf, printFramesLoop, hd, if_true]

/-- Witness of C5 on the sample engine as constructed: a history of one frame. -/
theorem printFrames_short_history_undefined_witness :
    1 ≤ sampleEngine.frames.length ∧ sampleEngine.frames.length ≤ 19 ∧
    ModelBase.printFrames sampleX sampleEngine sampleMachine [] =
      Outcome.undefined UB.moduloByZero :=
  ⟨by decide, by decide,
    printFrames_short_history_undefined sampleX sampleEngine sampleMachine [] (by decide)
      (by decide)⟩

end DiffusionSimulation
